import Mathlib

/-!
Shallow embedding of the codex-transcriber core (src/src/app.js) and proofs
about its specified behaviour.

Conventions of the embedding:
* JS strings are Lean `String`s; `for (const c of text)` iterates code points,
  matching `String.data`.
* JS numbers that the program only ever uses as (possibly negative) integral
  millisecond timestamps, widths or indices are `Int` (or `Nat` where the
  source guarantees non-negativity).
* A JS value that may be `undefined`/`null`/absent is an `Option`.
* Fields read with `x || d` (falsy fallback) are translated explicitly:
  for strings falsy means `""`, for numbers `0`, for objects `none`.
* Fallible operations are `Except`.
-/

namespace CodexTranscriber

/-! ## String helpers

Lean's built-in `String.trimLeft`, `String.startsWith`, `String.splitOn`,
`String.endsWith` and `String.intercalate` operate on byte positions and do
not reduce inside the kernel, so the corresponding JS operations are modelled
directly on the code-point list underlying the string — which is also what
the JS string methods see. -/

/-- JS `text.trimStart()`: drop leading whitespace code points. -/
def jsTrimStart (s : String) : String :=
  String.mk (s.data.dropWhile Char.isWhitespace)

/-- JS `text.startsWith(p)`. -/
def jsStartsWith (s p : String) : Bool :=
  p.data.isPrefixOf s.data

/-- JS `text.endsWith(p)`. -/
def jsEndsWith (s p : String) : Bool :=
  p.data.isSuffixOf s.data

/-- `list.join(sep)` / `String.intercalate`. -/
def joinSep (sep : String) : List String → String
  | [] => ""
  | [x] => x
  | x :: rest => x ++ sep ++ joinSep sep rest

/-- Split a code-point list at a separator character (the `"/"` splits the
program performs on paths). -/
def splitChar (sep : Char) : List Char → List (List Char)
  | [] => [[]]
  | c :: rest =>
    let r := splitChar sep rest
    if c = sep then [] :: r
    else
      match r with
      | [] => [[c]]
      | h :: t => (c :: h) :: t

/-! ## Width primitives (charWidth, stringWidth, truncateByWidth) -/

/-- `charWidth` from app.js: control chars (≤ 0x1F) are width 0, the rest of
the ASCII range (≤ 0x7F) width 1, every other code point width 2. -/
def charWidth (c : Char) : Nat :=
  if c.toNat ≤ 0x1f then 0
  else if c.toNat ≤ 0x7f then 1
  else 2

/-- Display width of a list of code points (the loop body of `stringWidth`). -/
def listWidth (cs : List Char) : Nat :=
  (cs.map charWidth).sum

/-- `stringWidth` from app.js: sum of `charWidth` over the code points. -/
def stringWidth (s : String) : Nat :=
  listWidth s.data

/-- Auxiliary loop of `truncateByWidth`: keep consuming characters while the
accumulated width plus the next character's width stays within `maxWidth`
(the source `break`s at the first overflowing character). -/
def twAux (mw : Int) : List Char → Int → List Char
  | [], _ => []
  | c :: rest, w =>
    if w + (charWidth c : Int) > mw then []
    else c :: twAux mw rest (w + (charWidth c : Int))

/-- `truncateByWidth` from app.js. -/
def truncateByWidth (text : String) (maxWidth : Int) : String :=
  if text = "" ∨ maxWidth ≤ 0 then ""
  else String.mk (twAux maxWidth text.data 0)

/-- JS `s.slice(0, stop)`: a negative `stop` counts from the end of the
string, and the result is clamped to the string's bounds. -/
def jsSlice0 (s : String) (stop : Int) : String :=
  let len : Int := s.length
  let e : Int := if stop < 0 then max (len + stop) 0 else min stop len
  String.mk (s.data.take e.toNat)

/-- `truncateLabel` from app.js.  Note that the source measures the label with
`label.length` and cuts it with `label.slice`, i.e. it counts characters
(UTF-16 code units; identical to code points on the BMP), not display-width
units. -/
def truncateLabel (label : String) (maxWidth : Int) : String :=
  if label = "" then ""
  else if (label.length : Int) ≤ maxWidth then label
  else if maxWidth ≤ 3 then jsSlice0 label maxWidth
  else jsSlice0 label (maxWidth - 3) ++ "..."

/-- Modelled from the spec's words (§4.1 "Truncation … keep the first
`budget−3` width-units and append `...`; if budget ≤ 3, hard-cut without
ellipsis"), measuring in display-width units.  Used only to compare the
spec's ellipsis contract with the source's `truncateLabel`. -/
def truncateLabelSpecWidth (label : String) (budget : Int) : String :=
  if (stringWidth label : Int) ≤ budget then label
  else if budget ≤ 3 then truncateByWidth label budget
  else truncateByWidth label (budget - 3) ++ "..."

/-! ## wrapText / wrapRows -/

/-- The mutable loop state of `wrapText`: completed lines, the line being
assembled, and its accumulated display width. -/
structure WState where
  lines : List (List Char)
  line : List Char
  lineWidth : Nat
deriving DecidableEq, Repr

/-- One character step of the `wrapText` loop (after `\r`/`\t` handling):
flush the current line if adding the character would overflow a non-empty
line, append the character, and flush again if the line reached `mw`. -/
def pushChar (mw : Nat) (st : WState) (c : Char) : WState :=
  let w := charWidth c
  let st1 := if st.lineWidth + w > mw ∧ st.line ≠ [] then
      WState.mk (st.lines ++ [st.line]) [] 0
    else st
  let st2 := WState.mk st1.lines (st1.line ++ [c]) (st1.lineWidth + w)
  if mw ≤ st2.lineWidth then WState.mk (st2.lines ++ [st2.line]) [] 0 else st2

/-- One iteration of the `wrapText` loop: `\r` is dropped, `\t` is expanded
to two spaces which are pushed through the ordinary character logic. -/
def wrapStep (mw : Nat) (st : WState) (c : Char) : WState :=
  if c = '\r' then st
  else if c = '\t' then pushChar mw (pushChar mw st ' ') ' '
  else pushChar mw st c

/-- Body of `wrapText` for a positive width: run the loop, then push the
final partial line if it is non-empty or nothing was emitted at all. -/
def wrapChars (mw : Nat) (cs : List Char) : List (List Char) :=
  let st := cs.foldl (wrapStep mw) (WState.mk [] [] 0)
  if st.line ≠ [] ∨ st.lines = [] then st.lines ++ [st.line] else st.lines

/-- `wrapText` from app.js.  A non-positive width returns the text as a
single line; the empty text yields one single-space line. -/
def wrapText (text : String) (maxWidth : Int) : List String :=
  if maxWidth ≤ 0 then [text]
  else if text = "" then [" "]
  else (wrapChars maxWidth.toNat text.data).map String.mk

/-- A row of the conversation pane: a kind tag, an optional role for color
hinting, and the text. -/
structure Row where
  type : String
  role : Option String
  text : String
deriving DecidableEq, Repr

/-- Per-row body of `wrapRows`: wrap the row's text and re-tag continuation
lines ("label" rows continue as plain "text" rows).  The `lines = []` branch
mirrors the source's guard even though `wrapText` never returns an empty
list. -/
def wrapRow (maxWidth : Int) (row : Row) : List Row :=
  let lines := wrapText row.text maxWidth
  if lines = [] then [row]
  else lines.enum.map fun p =>
    { row with
        type := if p.1 = 0 then row.type
                else if row.type = "label" then "text" else row.type,
        text := p.2 }

/-- `wrapRows` from app.js. -/
def wrapRows (rows : List Row) (maxWidth : Int) : List Row :=
  rows.flatMap (wrapRow maxWidth)

/-! ## Conversation extractor -/

/-- Role of a conversation entry. -/
inductive Role
  | user
  | assistant
deriving DecidableEq, Repr

/-- One conversation entry: `{ role, text }`. -/
structure Entry where
  role : Role
  text : String
deriving DecidableEq, Repr

/-- A structured content part of a fallback-stream (`response_item`) message.
Absent fields are `none`. -/
structure ContentItem where
  type : Option String
  text : Option String
deriving DecidableEq, Repr

/-- The payload object of a parsed record; every field the extractor reads,
with `none` for absent fields.  `images`/`local_images` are `none` when the
field is not an array (the source checks `Array.isArray`). -/
structure Payload where
  type : Option String
  message : Option String
  images : Option (List String)
  local_images : Option (List String)
  role : Option String
  content : Option (List ContentItem)
deriving DecidableEq, Repr

/-- The payload `{}` used for `parsed.payload || {}`. -/
def Payload.empty : Payload :=
  ⟨none, none, none, none, none, none⟩

/-- One line of a session log as the extractor sees it after `JSON.parse`:
blank (only whitespace), malformed (parse failure), or a parsed record with
its `type` discriminant and optional payload.  A parsed value without a
usable `type` is `record none _`. -/
inductive LogLine
  | blank
  | malformed
  | record (rtype : Option String) (payload : Option Payload)
deriving DecidableEq, Repr

/-- `EXCLUDE_PREFIXES` from app.js. -/
def EXCLUDE_PREFIXES : List String :=
  ["# AGENTS.md", "<environment_context>", "<permissions instructions>",
   "<INSTRUCTIONS>"]

/-- `shouldExcludeText` from app.js: empty text is excluded, and so is text
that, after stripping leading whitespace, starts with a sentinel prefix. -/
def shouldExcludeText (text : String) : Bool :=
  if text = "" then true
  else EXCLUDE_PREFIXES.any fun prefixStr =>
    jsStartsWith (jsTrimStart text) prefixStr

/-- `imagePlaceholders` from app.js: one `[image i]` token per attached image
reference, numbering from 1 across `images` then `local_images`. -/
def imagePlaceholders (payload : Payload) : List String :=
  let images := (payload.images.getD []) ++ (payload.local_images.getD [])
  if images = [] then []
  else images.enum.map fun p => "[image " ++ toString (p.1 + 1) ++ "]"

/-- `appendImages` from app.js: join the placeholders by newlines and attach
them to the body, separated by a blank line only when the body is
non-empty. -/
def appendImages (text : String) (payload : Payload) : String :=
  let placeholders := imagePlaceholders payload
  if placeholders = [] then text
  else
    let suffix := joinSep "\n" placeholders
    if text = "" then suffix else text ++ "\n\n" ++ suffix

/-- `buildTextFromContent` from app.js: newline-join the texts of the
`input_text`/`output_text` parts, dropping absent or empty texts
(`filter(Boolean)`). -/
def buildTextFromContent (content : Option (List ContentItem)) : String :=
  match content with
  | none => ""
  | some items =>
    let parts :=
      ((items.filter fun item =>
          item.type == some "input_text" || item.type == some "output_text").map
        fun item => item.text.getD "").filter fun t => t ≠ ""
    joinSep "\n" parts

/-- The loop body of `extractConversation`, updating the pair
(eventMessages, fallbackMessages). -/
def processLine (acc : List Entry × List Entry) (l : LogLine) :
    List Entry × List Entry :=
  match l with
  | .blank => acc
  | .malformed => acc
  | .record rtype payload =>
    let acc :=
      if rtype = some "event_msg" then
        let p := payload.getD Payload.empty
        let acc :=
          if p.type = some "user_message" then
            let text := appendImages (p.message.getD "") p
            if ¬ shouldExcludeText text then
              (acc.1 ++ [⟨Role.user, text⟩], acc.2)
            else acc
          else acc
        if p.type = some "agent_message" ∨ p.type = some "assistant_message" then
          let text := p.message.getD ""
          if ¬ shouldExcludeText text then
            (acc.1 ++ [⟨Role.assistant, text⟩], acc.2)
          else acc
        else acc
      else acc
    if rtype = some "response_item" then
      let p := payload.getD Payload.empty
      if p.type = some "message" then
        if p.role = some "user" ∨ p.role = some "assistant" then
          let role := if p.role = some "user" then Role.user else Role.assistant
          let text := buildTextFromContent p.content
          if ¬ shouldExcludeText text then
            (acc.1, acc.2 ++ [⟨role, text⟩])
          else acc
        else acc
      else acc
    else acc

/-- `extractConversation` from app.js, over the parsed lines of the log:
accumulate both streams in one scan, then return the primary (event_msg)
stream if non-empty and the fallback (response_item) stream otherwise. -/
def extractConversation (ls : List LogLine) : List Entry :=
  let r := ls.foldl processLine ([], [])
  if 0 < r.1.length then r.1 else r.2

/-- The primary stream on its own: entries contributed by qualifying
`event_msg` records, in order. -/
def primaryStep (acc : List Entry) (l : LogLine) : List Entry :=
  match l with
  | .blank => acc
  | .malformed => acc
  | .record rtype payload =>
    if rtype = some "event_msg" then
      let p := payload.getD Payload.empty
      let acc :=
        if p.type = some "user_message" then
          let text := appendImages (p.message.getD "") p
          if ¬ shouldExcludeText text then acc ++ [⟨Role.user, text⟩] else acc
        else acc
      if p.type = some "agent_message" ∨ p.type = some "assistant_message" then
        let text := p.message.getD ""
        if ¬ shouldExcludeText text then acc ++ [⟨Role.assistant, text⟩] else acc
      else acc
    else acc

/-- The fallback stream on its own: entries contributed by qualifying
`response_item` message records, in order. -/
def fallbackStep (acc : List Entry) (l : LogLine) : List Entry :=
  match l with
  | .blank => acc
  | .malformed => acc
  | .record rtype payload =>
    if rtype = some "response_item" then
      let p := payload.getD Payload.empty
      if p.type = some "message" then
        if p.role = some "user" ∨ p.role = some "assistant" then
          let role := if p.role = some "user" then Role.user else Role.assistant
          let text := buildTextFromContent p.content
          if ¬ shouldExcludeText text then acc ++ [⟨role, text⟩] else acc
        else acc
      else acc
    else acc

/-- All qualifying primary-stream entries of a log. -/
def primaryStream (ls : List LogLine) : List Entry :=
  ls.foldl primaryStep []

/-- All qualifying fallback-stream entries of a log. -/
def fallbackStream (ls : List LogLine) : List Entry :=
  ls.foldl fallbackStep []

/-! ## Session locator -/

/-- Model of `path.join(a, b)` for the simple two-component joins the
program performs. -/
def joinPath (a b : String) : String :=
  a ++ "/" ++ b

/-- A node of the scanned file-system tree.  `dir none` is a directory whose
`readdir` fails; `other` is a dirent that is neither a regular file nor a
directory (skipped by the scan). -/
inductive FsNode
  | file
  | other
  | dir (entries : Option (List (String × FsNode)))
deriving Repr

mutual

/-- `findJsonlFiles` from app.js: a failed `readdir` (including calling it on
a non-directory) is caught and yields `[]`; otherwise directories are
recursed into and regular files ending in `.jsonl` are collected, in entry
order. -/
def findJsonlFiles (dirPath : String) : FsNode → List String
  | .file => []
  | .other => []
  | .dir none => []
  | .dir (some entries) => findInEntries dirPath entries

/-- The entry loop of `findJsonlFiles`. -/
def findInEntries (dirPath : String) : List (String × FsNode) → List String
  | [] => []
  | (name, node) :: rest =>
    (match node with
     | .dir d => findJsonlFiles (joinPath dirPath name) (.dir d)
     | .file =>
       if jsEndsWith name ".jsonl" then [joinPath dirPath name] else []
     | .other => []) ++ findInEntries dirPath rest

end

/-- The message block `ListView` renders, as a function of its inputs: the
loading state wins, then a non-empty error string shows the load-error
state, then an empty session list shows "No sessions found", and otherwise
the session list itself is rendered. -/
def listViewMessage (loading : Bool) (error : String) (sessionCount : Nat) :
    String :=
  if loading then "Loading..."
  else if error ≠ "" then "Load error"
  else if sessionCount = 0 then "No sessions found"
  else "(session list)"

/-- JS `a || b` on numbers that are known not to be `NaN`: falsy means 0. -/
def jsOrInt (a b : Int) : Int :=
  if a = 0 then b else a

/-- The sort-key derivation of the session-scan effect in app.js:
`mtimeMs` starts at 0 and is overwritten by a successful, finite
`stat(...).mtimeMs`; `metaMs` is the parsed metadata timestamp with `NaN`
mapped to 0; `filenameMs` is the filename-embedded timestamp with `null`
mapped to 0; the key is `mtimeMs || metaMs || filenameMs || 0`.
`none` models an unavailable value (failed stat / missing or unparseable
timestamp). -/
def deriveSortKey (statMtime : Option Int) (metaTs : Option Int)
    (filenameTs : Option Int) : Int :=
  let mtimeMs := match statMtime with | some v => v | none => 0
  let metaMs := match metaTs with | some v => v | none => 0
  let filenameMs := match filenameTs with | some v => v | none => 0
  jsOrInt (jsOrInt (jsOrInt mtimeMs metaMs) filenameMs) 0

/-- A session descriptor as built by the scan effect (the unused `git` hint
is omitted). -/
structure Session where
  id : Option String
  label : String
  path : Option String
  sortKey : Int
deriving DecidableEq, Repr

/-- The order imposed by the comparator of `sessionsData.sort`: `a` comes no
later than `b` when its sort key is larger, or the keys are equal and its
label is no larger (the source's `localeCompare` is modelled as the code
point order on labels). -/
def sessionLe (a b : Session) : Prop :=
  b.sortKey < a.sortKey ∨ (a.sortKey = b.sortKey ∧ a.label ≤ b.label)

instance : DecidableRel sessionLe := fun a b => by
  unfold sessionLe; infer_instance

instance : IsTotal Session sessionLe where
  total a b := by
    unfold sessionLe
    rcases lt_trichotomy a.sortKey b.sortKey with h | h | h
    · exact Or.inr (Or.inl h)
    · rcases le_total a.label b.label with hl | hl
      · exact Or.inl (Or.inr ⟨h, hl⟩)
      · exact Or.inr (Or.inr ⟨h.symm, hl⟩)
    · exact Or.inl (Or.inl h)

instance : IsTrans Session sessionLe where
  trans a b c hab hbc := by
    unfold sessionLe at *
    rcases hab with h1 | ⟨h1, h1l⟩ <;> rcases hbc with h2 | ⟨h2, h2l⟩
    · exact Or.inl (h2.trans h1)
    · exact Or.inl (h2 ▸ h1)
    · exact Or.inl (h1 ▸ h2)
    · exact Or.inr ⟨h1.trans h2, h1l.trans h2l⟩

/-- `sessionsData.sort(...)` from app.js: a stable sort by the comparator
(descending `sortKey`, ties by ascending label), modelled as insertion
sort. -/
def sortSessions (l : List Session) : List Session :=
  List.insertionSort sessionLe l

/-! ## Viewport/scroll controller (conversation pane) -/

/-- `maxRightOffset` as a function of the row count and the visible count:
`Math.max(0, totalRows - visibleCount)`. -/
def maxOff (totalRows visibleCount : Nat) : Int :=
  max 0 ((totalRows : Int) - (visibleCount : Int))

/-- State of the conversation pane's scroll window together with the
quantities its clamps read. -/
structure RState where
  offset : Int
  totalRows : Nat
  visibleCount : Nat
deriving DecidableEq, Repr

/-- `maxRightOffset` for a pane state. -/
def RState.maxOffset (s : RState) : Int :=
  maxOff s.totalRows s.visibleCount

/-- `Math.ceil(vc / 2)` for a natural `vc`. -/
def ceilHalf (vc : Nat) : Nat :=
  (vc + 1) / 2

/-- The transitions of the conversation pane.  Key events use the current
`maxRightOffset`; `clampResize` is a totals/visible-count change (terminal
height change) after which the clamp effect re-clamps the offset;
`sessionSwitch`, `modeToggle`, `widthChange` and `headerChange` are the
dependencies of the reset effect, which sets the offset to 0. -/
inductive REvent
  | lineUp
  | lineDown
  | pageUp
  | pageDown
  | halfUp
  | halfDown
  | toTop
  | toBottom
  | clampResize (tr vc : Nat)
  | sessionSwitch (tr vc : Nat)
  | modeToggle (tr vc : Nat)
  | widthChange (tr vc : Nat)
  | headerChange (vc : Nat)
deriving DecidableEq, Repr

/-- The scroll-state transition function of the conversation pane, from the
input handlers and the two offset effects in app.js. -/
def rightStep (s : RState) (e : REvent) : RState :=
  match e with
  | .lineUp => { s with offset := max 0 (s.offset - 1) }
  | .lineDown => { s with offset := min s.maxOffset (s.offset + 1) }
  | .pageUp => { s with offset := max 0 (s.offset - (s.visibleCount : Int)) }
  | .pageDown =>
    { s with offset := min s.maxOffset (s.offset + (s.visibleCount : Int)) }
  | .halfUp =>
    { s with offset := max 0 (s.offset - (ceilHalf s.visibleCount : Int)) }
  | .halfDown =>
    { s with
        offset := min s.maxOffset (s.offset + (ceilHalf s.visibleCount : Int)) }
  | .toTop => { s with offset := 0 }
  | .toBottom => { s with offset := s.maxOffset }
  | .clampResize tr vc =>
    { offset := min s.offset (maxOff tr vc), totalRows := tr,
      visibleCount := vc }
  | .sessionSwitch tr vc =>
    { offset := 0, totalRows := tr, visibleCount := vc }
  | .modeToggle tr vc =>
    { offset := 0, totalRows := tr, visibleCount := vc }
  | .widthChange tr vc =>
    { offset := 0, totalRows := tr, visibleCount := vc }
  | .headerChange vc =>
    { offset := 0, totalRows := s.totalRows, visibleCount := vc }

/-- The scroll-window invariant of the spec. -/
def RInv (s : RState) : Prop :=
  0 ≤ s.offset ∧ s.offset ≤ s.maxOffset

/-! ## Exporter -/

/-- JS `s || d` on strings that may be absent: `undefined` and `""` fall
back to the default. -/
def jsOrStr (s : Option String) (d : String) : String :=
  match s with
  | some v => if v = "" then d else v
  | none => d

/-- Model of Node's `path.basename(p, ext)`: the last non-empty
`/`-component, with the extension stripped when the name ends in it without
being exactly it. -/
def jsBasenameExt (p ext : String) : String :=
  let base :=
    match ((splitChar '/' p.data).filter fun s => s ≠ []).getLast? with
    | some b => String.mk b
    | none => ""
  if jsEndsWith base ext ∧ base ≠ ext then
    String.mk (base.data.take (base.length - ext.length))
  else base

/-- `defaultExportPath` from app.js, with the working directory passed in.
For a `null`/`undefined` session, `session?.id` evaluates to `undefined`
(falsy), and the `session.path` in the fallback operand then throws a
`TypeError`, modelled as `Except.error`. -/
def defaultExportPath (cwd : String) : Option Session → Except String String
  | none => .error "TypeError: cannot read path of null"
  | some s =>
    let base :=
      match s.id with
      | some i =>
        if i = "" then jsBasenameExt (jsOrStr s.path "session") ".jsonl" else i
      | none => jsBasenameExt (jsOrStr s.path "session") ".jsonl"
    .ok (joinPath cwd (base ++ ".md"))

/-! ## Proof-support predicates -/

/-- Lines already processed by the wrap loop contain no carriage return and
no tab (returns are dropped, tabs are expanded to spaces). -/
def NoCRT (cs : List Char) : Prop :=
  ∀ c ∈ cs, c ≠ '\r' ∧ c ≠ '\t'

/-- Shape of every line the wrap loop emits at width `mw`: non-empty, free of
`\r`/`\t`, and either strictly narrower than `mw`, or exactly `mw` wide
ending in a positive-width character, or a single character wider than
`mw`. -/
def SLine (mw : Nat) (cs : List Char) : Prop :=
  cs ≠ [] ∧ NoCRT cs ∧
    (listWidth cs < mw ∨
     (listWidth cs = mw ∧ ∃ c cs0, cs = cs0 ++ [c] ∧ 0 < charWidth c) ∨
     (∃ c, cs = [c] ∧ mw < charWidth c))

/-- Loop invariant of `wrapText` at width `mw`: all emitted lines have shape
`SLine`, and the line under construction is consistent, strictly narrow and
clean. -/
def WInv (mw : Nat) (st : WState) : Prop :=
  (∀ l ∈ st.lines, SLine mw l) ∧
    st.lineWidth = listWidth st.line ∧ listWidth st.line < mw ∧ NoCRT st.line

/-- The wrap state is not entirely empty. -/
def PNE (st : WState) : Prop :=
  st.lines ≠ [] ∨ st.line ≠ []

/-- A text that is empty or contains some non-`\r` character.  Texts
violating this (a non-empty run of carriage returns) wrap to a single empty
line, the one shape `wrapText` does not reproduce. -/
def GoodText (t : String) : Prop :=
  t = "" ∨ ∃ c ∈ t.data, c ≠ '\r'

instance : DecidablePred GoodText := fun t => by
  unfold GoodText; infer_instance

/-! ## Basic lemmas -/

theorem listWidth_nil : listWidth [] = 0 := rfl

theorem listWidth_cons (c : Char) (cs : List Char) :
    listWidth (c :: cs) = charWidth c + listWidth cs := by
  simp [listWidth]

theorem listWidth_append (a b : List Char) :
    listWidth (a ++ b) = listWidth a + listWidth b := by
  simp [listWidth]

theorem listWidth_singleton (c : Char) : listWidth [c] = charWidth c := by
  simp [listWidth]

/-! ## Extractor: the single fold computes both streams independently -/

theorem processLine_eq (acc : List Entry × List Entry) (l : LogLine) :
    processLine acc l = (primaryStep acc.1 l, fallbackStep acc.2 l) := by
  obtain ⟨ev, fb⟩ := acc
  cases l with
  | blank => rfl
  | malformed => rfl
  | record rtype payload =>
    by_cases h1 : rtype = some "event_msg"
    · have h2 : ¬ rtype = some "response_item" := by
        rw [h1]; intro h; exact absurd (Option.some.inj h) (by decide)
      simp only [processLine, primaryStep, fallbackStep, if_pos h1, if_neg h2]
      split_ifs <;> rfl
    · by_cases h2 : rtype = some "response_item"
      · simp only [processLine, primaryStep, fallbackStep, if_pos h2, if_neg h1]
        split_ifs <;> rfl
      · simp only [processLine, primaryStep, fallbackStep, if_neg h1, if_neg h2]

theorem foldl_processLine (ls : List LogLine) (ev fb : List Entry) :
    ls.foldl processLine (ev, fb) =
      (ls.foldl primaryStep ev, ls.foldl fallbackStep fb) := by
  induction ls generalizing ev fb with
  | nil => rfl
  | cons l rest ih =>
    simp only [List.foldl_cons, processLine_eq]
    exact ih _ _

/-- C1: extraction fallback is all-or-nothing.  If any qualifying
primary-stream (`event_msg`) record produced an entry, `extractConversation`
returns exactly the ordered primary-stream entries (so no fallback-stream
entry appears in the result); otherwise it returns exactly the ordered
fallback-stream entries. -/
theorem extractConversation_all_or_nothing (ls : List LogLine) :
    extractConversation ls =
      if primaryStream ls = [] then fallbackStream ls else primaryStream ls := by
  unfold extractConversation primaryStream fallbackStream
  rw [foldl_processLine]
  rcases h : ls.foldl primaryStep [] with _ | ⟨e, es⟩ <;>
    simp [h]

/-! ## C8: image placeholders -/

theorem enum_map_image (l : List String) :
    l.enum.map (fun q => "[image " ++ toString (q.1 + 1) ++ "]") =
      (List.range l.length).map (fun i => "[image " ++ toString (i + 1) ++ "]") := by
  rw [← List.enum_map_fst l, List.map_map]
  rfl

/-- C8: attached image references from the two possible fields are appended
as placeholder tokens `[image 1]`, `[image 2]`, … in attachment order,
joined to the message body by one blank line only when the body is
non-empty; a `user_message` with `images:["a.png","b.png"]` and empty
message yields the entry text `"[image 1]\n[image 2]"`. -/
theorem appendImages_contract : ∀ (text : String) (p : Payload),
    imagePlaceholders p =
      (List.range ((p.images.getD []) ++ (p.local_images.getD [])).length).map
        (fun i => "[image " ++ toString (i + 1) ++ "]")
  ∧ (imagePlaceholders p ≠ [] → text ≠ "" →
      appendImages text p =
        text ++ "\n\n" ++ joinSep "\n" (imagePlaceholders p))
  ∧ (imagePlaceholders p ≠ [] →
      appendImages "" p = joinSep "\n" (imagePlaceholders p))
  ∧ extractConversation
      [LogLine.record (some "event_msg")
        (some ⟨some "user_message", some "", some ["a.png", "b.png"], none,
          none, none⟩)] = [⟨Role.user, "[image 1]\n[image 2]"⟩] := by
  intro text p
  refine ⟨?_, ?_, ?_, by decide⟩
  · unfold imagePlaceholders
    by_cases h : (p.images.getD []) ++ (p.local_images.getD []) = []
    · simp [h]
    · rw [if_neg h, enum_map_image]
  · intro hne hte
    unfold appendImages
    rw [if_neg hne, if_neg hte]
  · intro hne
    unfold appendImages
    rw [if_neg hne, if_pos rfl]

theorem appendImages_contract_witness :
    imagePlaceholders
        ⟨some "user_message", some "hi", some ["a.png"], none, none, none⟩ ≠ []
  ∧ appendImages "hi"
        ⟨some "user_message", some "hi", some ["a.png"], none, none, none⟩ =
      "hi" ++ "\n\n" ++ joinSep "\n"
        (imagePlaceholders
          ⟨some "user_message", some "hi", some ["a.png"], none, none, none⟩) :=
  ⟨by decide,
    (appendImages_contract "hi"
      ⟨some "user_message", some "hi", some ["a.png"], none, none, none⟩).2.1
      (by decide) (by decide)⟩

/-! ## C10: defaultExportPath -/

/-- C10: `defaultExportPath` is only defined for a non-null session: a
session with a non-empty id maps to `<cwd>/<id>.md`; a session without an
id uses the base name of `session.path` without the `.jsonl` extension, or
`"session"` when the path is absent; a null session makes the
`session.path` access throw instead of producing a fallback path. -/
theorem defaultExportPath_contract : ∀ (cwd : String) (s : Session),
    (∀ i, s.id = some i → i ≠ "" →
      defaultExportPath cwd (some s) = .ok (joinPath cwd (i ++ ".md")))
  ∧ (s.id = none → s.path = none →
      defaultExportPath cwd (some s) = .ok (joinPath cwd ("session" ++ ".md")))
  ∧ (s.id = none → ∀ p, s.path = some p → p ≠ "" →
      defaultExportPath cwd (some s) =
        .ok (joinPath cwd (jsBasenameExt p ".jsonl" ++ ".md")))
  ∧ defaultExportPath cwd none = .error "TypeError: cannot read path of null" := by
  intro cwd s
  refine ⟨?_, ?_, ?_, rfl⟩
  · intro i hi hne
    simp only [defaultExportPath, hi, if_neg hne]
  · intro hid hp
    simp only [defaultExportPath, hid, hp]
    rfl
  · intro hid p hp hpne
    simp only [defaultExportPath, hid, hp, jsOrStr, if_neg hpne]

theorem defaultExportPath_contract_witness :
    defaultExportPath "/cwd" (some ⟨some "abc123", "lbl", some "/x/y.jsonl", 0⟩) =
      .ok (joinPath "/cwd" ("abc123" ++ ".md")) :=
  (defaultExportPath_contract "/cwd" ⟨some "abc123", "lbl", some "/x/y.jsonl", 0⟩).1
    "abc123" rfl (by decide)

/-! ## C6: truncateLabel -/

/-- C6 counterexample: `truncateLabel` measures the label in characters
(`label.length` / `label.slice`), not in display-width units as the claim
states.  The four-character, width-8 label `"ああああ"` against budget 5
is returned unchanged, while the claim's width-unit contract demands
`"あ..."`. -/
theorem truncateLabel_width_counterexample :
    truncateLabel "ああああ" 5 = "ああああ"
  ∧ truncateLabelSpecWidth "ああああ" 5 = "あ..."
  ∧ truncateLabel "ああああ" 5 ≠ truncateLabelSpecWidth "ああああ" 5 := by
  refine ⟨by decide, by decide, by decide⟩

/-- C6 amended: the ellipsis contract of `truncateLabel`, measured in
characters instead of width-units: a label whose character count fits the
budget is returned unchanged; a longer label with a budget above 3 keeps the
first `budget − 3` characters and appends `"..."` (making the result exactly
`budget` characters); with a non-negative budget of at most 3 the label is
hard-cut to `budget` characters without an ellipsis. -/
theorem truncateLabel_contract : ∀ (label : String) (budget : Int),
    ((label.length : Int) ≤ budget → truncateLabel label budget = label)
  ∧ (budget < label.length → 3 < budget →
      truncateLabel label budget =
        String.mk (label.data.take (budget - 3).toNat) ++ "..."
      ∧ (truncateLabel label budget).length = budget.toNat)
  ∧ (budget < label.length → budget ≤ 3 → 0 ≤ budget →
      truncateLabel label budget = String.mk (label.data.take budget.toNat)) := by
  intro label budget
  refine ⟨?_, ?_, ?_⟩
  · intro hfit
    unfold truncateLabel
    by_cases hlab : label = ""
    · rw [if_pos hlab, hlab]
    · rw [if_neg hlab, if_pos hfit]
  · intro hgt h3
    have hlab : label ≠ "" := by
      intro h
      subst h
      have h0 : ("" : String).length = 0 := rfl
      rw [h0] at hgt
      omega
    have hnfit : ¬ (label.length : Int) ≤ budget := by omega
    have hn3 : ¬ budget ≤ 3 := by omega
    have heq : truncateLabel label budget =
        String.mk (label.data.take (budget - 3).toNat) ++ "..." := by
      unfold truncateLabel jsSlice0
      rw [if_neg hlab, if_neg hnfit, if_neg hn3]
      have hstop : ¬ budget - 3 < 0 := by omega
      simp only [if_neg hstop]
      have hm : min (budget - 3) (label.length : Int) = budget - 3 := by omega
      rw [hm]
    refine ⟨heq, ?_⟩
    rw [heq, String.length_append]
    have h1 : (String.mk (label.data.take (budget - 3).toNat)).length
        = (label.data.take (budget - 3).toNat).length := rfl
    rw [h1, List.length_take]
    have hdata : label.data.length = label.length := rfl
    rw [hdata]
    have h2 : ("..." : String).length = 3 := rfl
    rw [h2]
    omega
  · intro hgt h3 h0
    have hlab : label ≠ "" := by
      intro h
      subst h
      have h00 : ("" : String).length = 0 := rfl
      rw [h00] at hgt
      omega
    have hnfit : ¬ (label.length : Int) ≤ budget := by omega
    unfold truncateLabel jsSlice0
    rw [if_neg hlab, if_neg hnfit, if_pos h3]
    have hstop : ¬ budget < 0 := by omega
    simp only [if_neg hstop]
    have hm : min budget (label.length : Int) = budget := by omega
    rw [hm]

theorem truncateLabel_contract_witness :
    truncateLabel "abcdefgh" 6 =
      String.mk ("abcdefgh".data.take ((6 : Int) - 3).toNat) ++ "..."
  ∧ (truncateLabel "abcdefgh" 6).length = (6 : Int).toNat :=
  (truncateLabel_contract "abcdefgh" 6).2.1 (by decide) (by decide)

/-! ## C3: sort key derivation and session ordering -/

/-- C3 counterexample: the fallback from the file-system modification time is
taken whenever `mtimeMs` is falsy (zero), not only when the modification time
is unavailable.  For a file with an available modification time of 0 ms (the
epoch) and a metadata timestamp of 5 ms, the claim demands sort key 0 (the
mtime), but the code derives 5. -/
theorem deriveSortKey_zero_mtime_counterexample :
    deriveSortKey (some 0) (some 5) (some 7) = 5
  ∧ deriveSortKey (some 0) (some 5) (some 7) ≠ 0 := by
  refine ⟨by decide, by decide⟩

/-- C3 amended: the derived sort key is the file-system modification time
when it is available and non-zero, falling back (when the modification time
is unavailable or zero) to the parsed metadata timestamp, then (when that is
also unavailable or zero) to the filename-embedded timestamp, then to 0; and
the session sort is descending by sort key with ties broken by ascending
label order (`localeCompare` modelled as the code-point order). -/
theorem deriveSortKey_and_sort_contract :
    (∀ (mt meta fn : Option Int),
      (∀ m, mt = some m → m ≠ 0 → deriveSortKey mt meta fn = m)
      ∧ ((mt = none ∨ mt = some 0) → ∀ mv, meta = some mv → mv ≠ 0 →
          deriveSortKey mt meta fn = mv)
      ∧ ((mt = none ∨ mt = some 0) → (meta = none ∨ meta = some 0) →
          ∀ fv, fn = some fv → fv ≠ 0 → deriveSortKey mt meta fn = fv)
      ∧ ((mt = none ∨ mt = some 0) → (meta = none ∨ meta = some 0) →
          (fn = none ∨ fn = some 0) → deriveSortKey mt meta fn = 0))
  ∧ (∀ l : List Session,
      List.Sorted sessionLe (sortSessions l) ∧ (sortSessions l).Perm l) := by
  constructor
  · intro mt meta fn
    refine ⟨?_, ?_, ?_, ?_⟩
    · intro m hm hne
      subst hm
      simp [deriveSortKey, jsOrInt, hne]
    · rintro (rfl | rfl) mv hmv hne <;> subst hmv <;>
        simp [deriveSortKey, jsOrInt, hne]
    · rintro (rfl | rfl) (rfl | rfl) fv hfv hne <;> subst hfv <;>
        simp [deriveSortKey, jsOrInt, hne]
    · rintro (rfl | rfl) (rfl | rfl) (rfl | rfl) <;> rfl
  · intro l
    exact ⟨List.sorted_insertionSort sessionLe l,
      List.perm_insertionSort sessionLe l⟩

theorem deriveSortKey_and_sort_contract_witness :
    deriveSortKey (some 3) (some 5) (some 7) = 3
  ∧ List.Sorted sessionLe
      (sortSessions [⟨none, "b", none, 5⟩, ⟨none, "a", none, 5⟩,
        ⟨none, "c", none, 3⟩]) :=
  ⟨(deriveSortKey_and_sort_contract.1 (some 3) (some 5) (some 7)).1 3 rfl
      (by decide),
    (deriveSortKey_and_sort_contract.2
      [⟨none, "b", none, 5⟩, ⟨none, "a", none, 5⟩, ⟨none, "c", none, 3⟩]).1⟩

/-! ## C4: unreadable scan root -/

/-- C4 counterexample: a failure to read the root scan directory is caught
inside `findJsonlFiles` and produces `[]`, the same value as a successful
scan of an empty directory, and the list view consequently renders the
"No sessions found" state, not the load-error state.  The two situations are
observably identical, contradicting the claimed distinguishability. -/
theorem scan_error_conflated_counterexample :
    findJsonlFiles "/sessions" (FsNode.dir none) =
      findJsonlFiles "/sessions" (FsNode.dir (some []))
  ∧ listViewMessage false ""
      (findJsonlFiles "/sessions" (FsNode.dir none)).length =
        "No sessions found" := by
  refine ⟨rfl, rfl⟩

/-- C4 amended: a failure to read the root scan directory is swallowed: the
scan returns the empty list, no load error is raised, and the rendered state
is exactly the "No sessions found" state of a successful scan that
discovered no session files. -/
theorem scan_error_swallowed : ∀ (p : String),
    findJsonlFiles p (FsNode.dir none) = []
  ∧ findJsonlFiles p (FsNode.dir (some [])) = []
  ∧ listViewMessage false "" (findJsonlFiles p (FsNode.dir none)).length =
      listViewMessage false ""
        (findJsonlFiles p (FsNode.dir (some []))).length := by
  intro p
  refine ⟨rfl, rfl, rfl⟩

/-! ## C5: conversation pane scroll offset -/

/-- C5 counterexample: a content-width change (which re-wraps the rows and
may change `totalRows`) resets the conversation pane's offset to 0 instead
of merely re-clamping it, although the claim allows a reset only for a
session switch or a render-mode toggle.  From offset 3 with the totals
changing from 10 rows to 20, re-clamping would keep 3; the code yields 0. -/
theorem widthChange_resets_counterexample :
    rightStep ⟨3, 10, 4⟩ (REvent.widthChange 20 4) = ⟨0, 20, 4⟩
  ∧ min (3 : Int) (maxOff 20 4) = 3
  ∧ (rightStep ⟨3, 10, 4⟩ (REvent.widthChange 20 4)).offset ≠ 3 := by
  refine ⟨by decide, by decide, by decide⟩

/-- C5 amended: after every transition the conversation pane's offset
satisfies `0 ≤ offset ≤ max(0, totalRows − visibleCount)`; a totals or
visible-count change alone (`clampResize`) re-clamps the offset against the
new maximum without resetting it; and switching the session, toggling the
render mode, a content-width change, or a header-height change reset the
offset to 0. -/
theorem rightScroll_contract : ∀ (s : RState) (e : REvent),
    (RInv s → RInv (rightStep s e))
  ∧ (∀ tr vc, rightStep s (.clampResize tr vc) =
      ⟨min s.offset (maxOff tr vc), tr, vc⟩)
  ∧ (∀ tr vc, (rightStep s (.sessionSwitch tr vc)).offset = 0
      ∧ (rightStep s (.modeToggle tr vc)).offset = 0
      ∧ (rightStep s (.widthChange tr vc)).offset = 0)
  ∧ (∀ vc, (rightStep s (.headerChange vc)).offset = 0) := by
  intro s e
  refine ⟨?_, fun tr vc => rfl, fun tr vc => ⟨rfl, rfl, rfl⟩, fun vc => rfl⟩
  intro hinv
  obtain ⟨h0, hm⟩ := hinv
  have hmax0 : 0 ≤ s.maxOffset := le_max_left 0 _
  cases e <;>
    simp only [rightStep, RInv, RState.maxOffset, maxOff] at * <;>
    omega

theorem rightScroll_contract_witness :
    RInv (rightStep ⟨0, 10, 4⟩ REvent.lineDown) :=
  (rightScroll_contract ⟨0, 10, 4⟩ REvent.lineDown).1 ⟨by decide, by decide⟩

/-! ## C9: wrapText is total and non-positive widths pass through -/

theorem wrapChars_ne_nil (mw : Nat) (cs : List Char) :
    wrapChars mw cs ≠ [] := by
  simp only [wrapChars]
  split
  · exact List.append_ne_nil_of_right_ne_nil _ (by simp)
  · next h =>
    push_neg at h
    exact h.2

theorem wrapText_ne_nil (t : String) (w : Int) : wrapText t w ≠ [] := by
  unfold wrapText
  split_ifs
  · simp
  · simp
  · simpa using wrapChars_ne_nil w.toNat t.data

/-- C9: `wrapText` always returns at least one line, and for every
non-positive width it returns exactly one line containing the text
unchanged (no tab expansion, no carriage-return stripping, no splitting);
in particular the empty string at a non-positive width yields one empty
line. -/
theorem wrapText_total : ∀ (t : String) (w : Int),
    1 ≤ (wrapText t w).length ∧ (w ≤ 0 → wrapText t w = [t]) := by
  intro t w
  by_cases hw : w ≤ 0
  · unfold wrapText
    rw [if_pos hw]
    exact ⟨by simp, fun _ => rfl⟩
  · unfold wrapText
    rw [if_neg hw]
    refine ⟨?_, fun h => absurd h hw⟩
    by_cases ht : t = ""
    · rw [if_pos ht]
      simp
    · rw [if_neg ht]
      rw [List.length_map]
      exact List.length_pos.mpr (wrapChars_ne_nil _ _)

theorem wrapText_total_witness :
    1 ≤ (wrapText "ab" (-1)).length ∧ wrapText "ab" (-1) = ["ab"] :=
  ⟨(wrapText_total "ab" (-1)).1, (wrapText_total "ab" (-1)).2 (by decide)⟩

/-! ## C2/C7: the wrap loop invariant -/

theorem NoCRT_nil : NoCRT [] := by
  intro c hc
  cases hc

theorem NoCRT_append {a b : List Char} (ha : NoCRT a) (hb : NoCRT b) :
    NoCRT (a ++ b) := by
  intro c hc
  rcases List.mem_append.mp hc with h | h
  · exact ha c h
  · exact hb c h

theorem NoCRT_singleton {c : Char} (h1 : c ≠ '\r') (h2 : c ≠ '\t') :
    NoCRT [c] := by
  intro x hx
  rcases List.mem_singleton.mp hx with rfl
  exact ⟨h1, h2⟩

theorem winv_pushChar {mw : Nat} {st : WState} {c : Char}
    (hmw : 1 ≤ mw) (h : WInv mw st) (hc1 : c ≠ '\r') (hc2 : c ≠ '\t') :
    WInv mw (pushChar mw st c) := by
  obtain ⟨hlines, heq, hlt, hnc⟩ := h
  by_cases h1 : st.lineWidth + charWidth c > mw ∧ st.line ≠ []
  · -- first flush fires
    have hSl : SLine mw st.line := ⟨h1.2, hnc, Or.inl hlt⟩
    by_cases h2 : mw ≤ 0 + charWidth c
    · have hres : pushChar mw st c =
          WState.mk ((st.lines ++ [st.line]) ++ [[c]]) [] 0 := by
        simp only [pushChar, if_pos h1, if_pos h2, List.nil_append]
      rw [hres]
      refine ⟨?_, rfl, hmw, NoCRT_nil⟩
      intro l hl
      rcases List.mem_append.mp hl with hl | hl
      · rcases List.mem_append.mp hl with hl | hl
        · exact hlines l hl
        · rcases List.mem_singleton.mp hl with rfl
          exact hSl
      · rcases List.mem_singleton.mp hl with rfl
        refine ⟨by simp, NoCRT_singleton hc1 hc2, ?_⟩
        rcases Nat.lt_or_ge mw (charWidth c) with hcc | hcc
        · exact Or.inr (Or.inr ⟨c, rfl, hcc⟩)
        · have hcm : listWidth [c] = mw := by
            rw [listWidth_singleton]
            omega
          exact Or.inr (Or.inl ⟨hcm, c, [], rfl, by omega⟩)
    · have hres : pushChar mw st c =
          WState.mk (st.lines ++ [st.line]) [c] (charWidth c) := by
        simp only [pushChar, if_pos h1, List.nil_append, Nat.zero_add]
        rw [if_neg (by omega : ¬ mw ≤ charWidth c)]
      rw [hres]
      refine ⟨?_, ?_, ?_, NoCRT_singleton hc1 hc2⟩
      · intro l hl
        rcases List.mem_append.mp hl with hl | hl
        · exact hlines l hl
        · rcases List.mem_singleton.mp hl with rfl
          exact hSl
      · show charWidth c = listWidth [c]
        rw [listWidth_singleton]
      · show listWidth [c] < mw
        rw [listWidth_singleton]
        omega
  · -- no first flush
    by_cases h2 : mw ≤ st.lineWidth + charWidth c
    · have hres : pushChar mw st c =
          WState.mk (st.lines ++ [st.line ++ [c]]) [] 0 := by
        simp only [pushChar, if_neg h1, if_pos h2]
      rw [hres]
      refine ⟨?_, rfl, hmw, NoCRT_nil⟩
      intro l hl
      rcases List.mem_append.mp hl with hl | hl
      · exact hlines l hl
      · rcases List.mem_singleton.mp hl with rfl
        refine ⟨by simp, NoCRT_append hnc (NoCRT_singleton hc1 hc2), ?_⟩
        have hw : listWidth (st.line ++ [c]) = listWidth st.line + charWidth c := by
          rw [listWidth_append, listWidth_singleton]
        rcases Nat.lt_or_ge mw (listWidth st.line + charWidth c) with hgt | hge
        · -- width > mw: the earlier flush did not fire, so the line was empty
          have hline : st.line = [] := by
            by_contra hne
            exact h1 ⟨by omega, hne⟩
          refine Or.inr (Or.inr ⟨c, ?_, ?_⟩)
          · rw [hline, List.nil_append]
          · rw [hline, listWidth_nil] at hgt
            omega
        · have hwm : listWidth (st.line ++ [c]) = mw := by omega
          exact Or.inr (Or.inl ⟨hwm, c, st.line, rfl, by omega⟩)
    · have hres : pushChar mw st c =
          WState.mk st.lines (st.line ++ [c])
            (st.lineWidth + charWidth c) := by
        simp only [pushChar, if_neg h1, if_neg h2]
      rw [hres]
      refine ⟨hlines, ?_, ?_, NoCRT_append hnc (NoCRT_singleton hc1 hc2)⟩
      · show st.lineWidth + charWidth c = listWidth (st.line ++ [c])
        rw [listWidth_append, listWidth_singleton, heq]
      · show listWidth (st.line ++ [c]) < mw
        rw [listWidth_append, listWidth_singleton]
        omega

theorem winv_wrapStep {mw : Nat} {st : WState} (c : Char)
    (hmw : 1 ≤ mw) (h : WInv mw st) : WInv mw (wrapStep mw st c) := by
  unfold wrapStep
  by_cases hr : c = '\r'
  · rw [if_pos hr]
    exact h
  · rw [if_neg hr]
    by_cases ht : c = '\t'
    · rw [if_pos ht]
      exact winv_pushChar hmw (winv_pushChar hmw h (by decide) (by decide))
        (by decide) (by decide)
    · rw [if_neg ht]
      exact winv_pushChar hmw h hr ht

theorem winv_foldl {mw : Nat} (hmw : 1 ≤ mw) (cs : List Char) (st : WState)
    (h : WInv mw st) : WInv mw (cs.foldl (wrapStep mw) st) := by
  induction cs generalizing st with
  | nil => exact h
  | cons c rest ih =>
    rw [List.foldl_cons]
    exact ih _ (winv_wrapStep c hmw h)

theorem winv_init {mw : Nat} (hmw : 1 ≤ mw) :
    WInv mw (WState.mk [] [] 0) :=
  ⟨fun l hl => absurd hl (List.not_mem_nil l), rfl, hmw, NoCRT_nil⟩

/-- Every line `wrapChars` outputs either fits in `mw` or is a single
over-wide character. -/
theorem wrapChars_mem_bound {mw : Nat} (hmw : 1 ≤ mw) (cs : List Char) :
    ∀ l ∈ wrapChars mw cs,
      listWidth l ≤ mw ∨ ∃ c, l = [c] ∧ mw < charWidth c := by
  have hinv := winv_foldl hmw cs _ (winv_init hmw)
  obtain ⟨hlines, _, hlt, _⟩ := hinv
  intro l hl
  have hS : ∀ l₀, SLine mw l₀ →
      listWidth l₀ ≤ mw ∨ ∃ c, l₀ = [c] ∧ mw < charWidth c := by
    intro l₀ hs
    rcases hs.2.2 with h | ⟨h, _⟩ | h
    · exact Or.inl (Nat.le_of_lt h)
    · exact Or.inl (Nat.le_of_eq h)
    · exact Or.inr h
  simp only [wrapChars] at hl
  split at hl
  · rcases List.mem_append.mp hl with hl | hl
    · exact hS l (hlines l hl)
    · rcases List.mem_singleton.mp hl with rfl
      exact Or.inl (Nat.le_of_lt hlt)
  · exact hS l (hlines l hl)

/-- C2: for every text and width `w ≥ 1`, each line produced by
`wrapText text w` has display width at most `w`, except a line consisting of
a single code point whose own width exceeds `w`, which is placed alone. -/
theorem wrapText_width_bound : ∀ (t : String) (w : Int), 1 ≤ w →
    ∀ l ∈ wrapText t w,
      (stringWidth l : Int) ≤ w ∨
        ∃ c, l.data = [c] ∧ w < (charWidth c : Int) := by
  intro t w hw l hl
  have hw0 : ¬ w ≤ 0 := by omega
  have hmw : 1 ≤ w.toNat := by omega
  have hcast : (w.toNat : Int) = w := by omega
  unfold wrapText at hl
  rw [if_neg hw0] at hl
  by_cases ht : t = ""
  · rw [if_pos ht, List.mem_singleton] at hl
    subst hl
    left
    have : stringWidth " " = 1 := by decide
    rw [this]
    omega
  · rw [if_neg ht] at hl
    rcases List.mem_map.mp hl with ⟨cs, hcs, rfl⟩
    rcases wrapChars_mem_bound hmw t.data cs hcs with hle | ⟨c, rfl, hgt⟩
    · left
      have hsw : stringWidth (String.mk cs) = listWidth cs := rfl
      rw [hsw]
      omega
    · right
      exact ⟨c, rfl, by omega⟩

theorem wrapText_width_bound_witness :
    (1 : Int) ≤ 2 ∧
      ∀ l ∈ wrapText "abc" 2,
        (stringWidth l : Int) ≤ 2 ∨
          ∃ c, l.data = [c] ∧ (2 : Int) < (charWidth c : Int) :=
  ⟨by decide, wrapText_width_bound "abc" 2 (by decide)⟩

/-! ## C7: stability of already-wrapped lines -/

theorem foldl_noflush {mw : Nat} : ∀ (cs : List Char) (st : WState),
    (∀ c ∈ cs, c ≠ '\r' ∧ c ≠ '\t') →
    st.lineWidth + listWidth cs < mw →
    cs.foldl (wrapStep mw) st =
      WState.mk st.lines (st.line ++ cs) (st.lineWidth + listWidth cs) := by
  intro cs
  induction cs with
  | nil =>
    intro st _ _
    cases st
    simp [listWidth_nil]
  | cons c rest ih =>
    intro st hnc hbound
    have hc := hnc c (List.mem_cons_self c rest)
    have hwc : listWidth (c :: rest) = charWidth c + listWidth rest :=
      listWidth_cons c rest
    rw [hwc] at hbound
    rw [List.foldl_cons]
    have hstep : wrapStep mw st c =
        WState.mk st.lines (st.line ++ [c]) (st.lineWidth + charWidth c) := by
      unfold wrapStep
      rw [if_neg hc.1, if_neg hc.2]
      simp only [pushChar]
      rw [if_neg (show ¬(st.lineWidth + charWidth c > mw ∧ st.line ≠ []) from
        fun h => absurd h.1 (by omega))]
      rw [if_neg (by omega : ¬ mw ≤ st.lineWidth + charWidth c)]
    rw [hstep,
      ih _ (fun c' hc' => hnc c' (List.mem_cons_of_mem c hc'))
        (by dsimp only; omega)]
    rw [hwc, List.append_assoc]
    simp only [List.singleton_append, WState.mk.injEq, true_and]
    omega

theorem wrapChars_stable {mw : Nat} (_hmw : 1 ≤ mw) {l : List Char}
    (h : SLine mw l) : wrapChars mw l = [l] := by
  obtain ⟨hne, hnc, hd⟩ := h
  rcases hd with hlt | ⟨hwm, c, cs0, rfl, hcpos⟩ | ⟨c, rfl, hgt⟩
  · -- strictly narrower than mw: the loop never flushes
    simp only [wrapChars]
    rw [foldl_noflush l _ hnc (by simpa using hlt)]
    rw [if_pos (Or.inr rfl)]
    simp
  · -- exactly mw wide, positive-width last character: one flush at the end
    have hsplit : listWidth cs0 + charWidth c = mw := by
      rw [listWidth_append, listWidth_singleton] at hwm
      omega
    have hcs0lt : listWidth cs0 < mw := by omega
    have hle2 : mw ≤ listWidth cs0 + charWidth c := by omega
    have hngt : ¬ listWidth cs0 + charWidth c > mw := by omega
    simp only [wrapChars]
    rw [List.foldl_append,
      foldl_noflush cs0 _ (fun c' h' => hnc c' (List.mem_append_left _ h'))
        (by simpa using hcs0lt)]
    rw [List.foldl_cons, List.foldl_nil]
    have hc := hnc c (List.mem_append_right _ (List.mem_singleton_self c))
    unfold wrapStep
    rw [if_neg hc.1, if_neg hc.2]
    simp [pushChar, hle2, hngt]
  · -- a single character wider than mw
    have hle : mw ≤ charWidth c := Nat.le_of_lt hgt
    simp only [wrapChars]
    rw [List.foldl_cons, List.foldl_nil]
    have hc := hnc c (List.mem_singleton_self c)
    unfold wrapStep
    rw [if_neg hc.1, if_neg hc.2]
    simp [pushChar, hle]

theorem pushChar_PNE (mw : Nat) (st : WState) (c : Char) :
    PNE (pushChar mw st c) := by
  unfold PNE
  simp only [pushChar]
  split_ifs <;> simp

theorem wrapStep_PNE {mw : Nat} {st : WState} {c : Char}
    (h : c ≠ '\r' ∨ PNE st) : PNE (wrapStep mw st c) := by
  unfold wrapStep
  by_cases hr : c = '\r'
  · rw [if_pos hr]
    rcases h with h | h
    · exact absurd hr h
    · exact h
  · rw [if_neg hr]
    by_cases ht : c = '\t'
    · rw [if_pos ht]
      exact pushChar_PNE _ _ _
    · rw [if_neg ht]
      exact pushChar_PNE _ _ _

theorem foldl_PNE {mw : Nat} : ∀ (cs : List Char) (st : WState),
    ((∃ c ∈ cs, c ≠ '\r') ∨ PNE st) →
    PNE (cs.foldl (wrapStep mw) st) := by
  intro cs
  induction cs with
  | nil =>
    intro st h
    rcases h with ⟨c, hc, _⟩ | h
    · cases hc
    · exact h
  | cons c rest ih =>
    intro st h
    rw [List.foldl_cons]
    by_cases hr : c = '\r'
    · apply ih
      rcases h with ⟨c', hc', hne⟩ | h
      · rcases List.mem_cons.mp hc' with rfl | hmem
        · exact absurd hr hne
        · exact Or.inl ⟨c', hmem, hne⟩
      · refine Or.inr ?_
        unfold wrapStep
        rw [if_pos hr]
        exact h
    · exact ih _ (Or.inr (wrapStep_PNE (Or.inl hr)))

/-- When the text has any non-`\r` character, every line `wrapChars` emits
has the `SLine` shape (in particular, none is empty). -/
theorem wrapChars_out_SLine {mw : Nat} (hmw : 1 ≤ mw) {cs : List Char}
    (hne : ∃ c ∈ cs, c ≠ '\r') :
    ∀ l ∈ wrapChars mw cs, SLine mw l := by
  have hinv := winv_foldl hmw cs _ (winv_init hmw)
  obtain ⟨hlines, heq, hlt, hnc⟩ := hinv
  have hp : PNE (cs.foldl (wrapStep mw) (WState.mk [] [] 0)) :=
    foldl_PNE cs (WState.mk [] [] 0) (Or.inl hne)
  intro l hl
  simp only [wrapChars] at hl
  split at hl
  · next hcond =>
    rcases List.mem_append.mp hl with hl | hl
    · exact hlines l hl
    · rcases List.mem_singleton.mp hl with rfl
      refine ⟨?_, hnc, Or.inl hlt⟩
      intro h0
      rcases hcond with h | h
      · exact h h0
      · rcases hp with hp | hp
        · exact hp h
        · exact hp h0
  · exact hlines l hl

theorem string_mk_ne_empty {cs : List Char} (h : cs ≠ []) :
    String.mk cs ≠ "" := by
  intro he
  apply h
  have hdata : (String.mk cs).data = ("" : String).data := by rw [he]
  simpa using hdata

/-- A line with the emitted shape re-wraps to itself. -/
theorem wrapText_stable_of_SLine {w : Int} (hw : 1 ≤ w) {cs : List Char}
    (h : SLine w.toNat cs) : wrapText (String.mk cs) w = [String.mk cs] := by
  have hw0 : ¬ w ≤ 0 := by omega
  unfold wrapText
  rw [if_neg hw0, if_neg (string_mk_ne_empty h.1)]
  have hdata : (String.mk cs).data = cs := rfl
  rw [hdata, wrapChars_stable (by omega) h]
  rfl

/-- Every line `wrapText` produces from a `GoodText` input re-wraps to
itself at the same width. -/
theorem wrapText_out_stable {w : Int} (hw : 1 ≤ w) {t : String}
    (hg : GoodText t) : ∀ l ∈ wrapText t w, wrapText l w = [l] := by
  intro l hl
  have hw0 : ¬ w ≤ 0 := by omega
  rcases hg with rfl | hex
  · have hempty : wrapText "" w = [" "] := by
      unfold wrapText
      rw [if_neg hw0, if_pos rfl]
    rw [hempty, List.mem_singleton] at hl
    subst hl
    have hmw : 1 ≤ w.toNat := by omega
    have hsl : SLine w.toNat [' '] := by
      refine ⟨by simp, NoCRT_singleton (by decide) (by decide), ?_⟩
      have h1 : charWidth ' ' = 1 := by decide
      rcases Nat.lt_or_ge 1 w.toNat with hgt | hge
      · exact Or.inl (by rw [listWidth_singleton, h1]; omega)
      · refine Or.inr (Or.inl ⟨by rw [listWidth_singleton, h1]; omega,
          ' ', [], rfl, by rw [h1]; omega⟩)
    have hst := wrapText_stable_of_SLine hw hsl
    have hmk : String.mk [' '] = " " := rfl
    rw [hmk] at hst
    exact hst
  · have ht : t ≠ "" := by
      intro h0
      subst h0
      rcases hex with ⟨c, hc, _⟩
      exact absurd hc (List.not_mem_nil c)
    unfold wrapText at hl
    rw [if_neg hw0, if_neg ht] at hl
    rcases List.mem_map.mp hl with ⟨cs, hcs, rfl⟩
    exact wrapText_stable_of_SLine hw
      (wrapChars_out_SLine (by omega) hex cs hcs)

/-- A row whose text re-wraps to itself passes through `wrapRow`
unchanged. -/
theorem wrapRow_self {w : Int} {r : Row} (h : wrapText r.text w = [r.text]) :
    wrapRow w r = [r] := by
  unfold wrapRow
  rw [h]
  rfl

/-- The text of every row `wrapRow` emits is a line of `wrapText` applied to
the input row's text. -/
theorem mem_wrapRow_text {w : Int} {row r : Row} (h : r ∈ wrapRow w row) :
    r.text ∈ wrapText row.text w := by
  unfold wrapRow at h
  have hne : wrapText row.text w ≠ [] := wrapText_ne_nil row.text w
  rw [if_neg hne] at h
  rcases List.mem_map.mp h with ⟨p, hp, rfl⟩
  have hmem : p.2 ∈ (wrapText row.text w).enum.map Prod.snd :=
    List.mem_map_of_mem Prod.snd hp
  rw [List.enum_map_snd] at hmem
  exact hmem

theorem flatMap_self {α : Type _} (l : List α) (f : α → List α)
    (h : ∀ x ∈ l, f x = [x]) : l.flatMap f = l := by
  induction l with
  | nil => rfl
  | cons x rest ih =>
    rw [List.flatMap_cons, h x (List.mem_cons_self x rest),
      ih fun y hy => h y (List.mem_cons_of_mem x hy)]
    rfl

theorem wrapRows_cons (r : Row) (l : List Row) (w : Int) :
    wrapRows (r :: l) w = wrapRow w r ++ wrapRows l w :=
  List.flatMap_cons r l (wrapRow w)

theorem wrapRows_append (a b : List Row) (w : Int) :
    wrapRows (a ++ b) w = wrapRows a w ++ wrapRows b w :=
  List.flatMap_append a b (wrapRow w)

/-- C7 counterexample: re-wrapping is not idempotent on a row whose text is
a non-empty run of carriage returns.  `wrapText "\r" 1` yields a single
empty line (the only emitted shape `wrapText` does not reproduce), and the
second pass turns that empty line into a single-space line. -/
theorem wrapRows_not_idempotent_counterexample :
    wrapRows (wrapRows [⟨"text", none, "\r"⟩] 1) 1 ≠
      wrapRows [⟨"text", none, "\r"⟩] 1
  ∧ wrapRows [⟨"text", none, "\r"⟩] 1 = [⟨"text", none, ""⟩]
  ∧ wrapRows (wrapRows [⟨"text", none, "\r"⟩] 1) 1 = [⟨"text", none, " "⟩] := by
  refine ⟨by decide, by decide, by decide⟩

/-- C7 amended: row re-wrapping is idempotent at every width `w ≥ 1` for
every row list in which no row's text is a non-empty string consisting
solely of carriage returns: applying the wrap pass a second time at the
same width yields the same row stream. -/
theorem wrapRows_idempotent : ∀ (rows : List Row) (w : Int), 1 ≤ w →
    (∀ r ∈ rows, GoodText r.text) →
    wrapRows (wrapRows rows w) w = wrapRows rows w := by
  intro rows w hw hg
  induction rows with
  | nil => rfl
  | cons row rest ih =>
    rw [wrapRows_cons, wrapRows_append,
      ih fun r hr => hg r (List.mem_cons_of_mem row hr)]
    have hhead : wrapRows (wrapRow w row) w = wrapRow w row := by
      apply flatMap_self
      intro r hr
      exact wrapRow_self
        (wrapText_out_stable hw (hg row (List.mem_cons_self row rest)) r.text
          (mem_wrapRow_text hr))
    rw [hhead]

theorem wrapRows_idempotent_witness :
    wrapRows (wrapRows [⟨"label", some "user", "hello"⟩] 3) 3 =
      wrapRows [⟨"label", some "user", "hello"⟩] 3 :=
  wrapRows_idempotent [⟨"label", some "user", "hello"⟩] 3 (by decide)
    (by decide)

end CodexTranscriber
